import Mathlib

/-
Shallow embedding of the mu library (src/matrix.rs, src/complex.rs).

Modelling conventions:
- Rust f64 scalars are modelled as exact rationals.  The claims settled here
  concern shape contracts, error conditions and algebraic structure, none of
  which depend on IEEE-754 rounding; division by zero follows the Lean
  convention x / 0 = 0 where the Rust code would produce a non-finite value,
  and no claim's verdict depends on that value.
- Rust panics (assert!, Vec index out of range) are modelled as
  Except.error with the error kind the specification assigns to the
  corresponding condition; a function that cannot panic is total (or
  constantly Except.ok when it sits in a fallible API).
- Loops that fill a freshly allocated matrix are modelled by Mat.ofFn,
  which builds the row-major buffer directly; the loop in the source writes
  exactly index i*cols+j of the buffer for each (i, j), which is the value
  ofFn places there.
-/

set_option maxHeartbeats 1000000

namespace Mu

/-- Error kinds of the specification's error taxonomy; the source signals
them as panics (assert!) or, for singular inverse, as Option. -/
inductive ErrKind where
  | InvalidShape
  | ShapeMismatch
  | NotSquare
  | IndexOutOfBounds
  | TooSmall
  | DivisionByZero
deriving DecidableEq, Repr

/-- The matrix type of src/matrix.rs: flat row-major buffer plus dimensions. -/
structure Mat where
  data : List ℚ
  rows : Nat
  cols : Nat
deriving DecidableEq, Repr

namespace Mat

/-- Reading the row-major buffer at logical position (i, j): data[i*cols+j].
Total (default 0) for convenience; the panicking Vec access is Mat.get. -/
def entry (m : Mat) (i j : Nat) : ℚ :=
  m.data.getD (i * m.cols + j) 0

/-- Build the row-major buffer of an rows x cols matrix whose (i, j) entry
is f i j.  This models the zeros-then-write-every-cell loops of the source. -/
def ofFn (rows cols : Nat) (f : Nat → Nat → ℚ) : Mat :=
  ⟨(List.range (rows * cols)).map fun k => f (k / cols) (k % cols), rows, cols⟩

/-- Mat::new: asserts rows != 0 && cols != 0, allocates a zero buffer. -/
def new (rows cols : Nat) : Except ErrKind Mat :=
  if rows ≠ 0 ∧ cols ≠ 0 then .ok ⟨List.replicate (rows * cols) 0, rows, cols⟩
  else .error .InvalidShape

/-- Mat::from_vec: asserts rows*cols == data.len(). -/
def from_vec (rows cols : Nat) (data : List ℚ) : Except ErrKind Mat :=
  if rows * cols = data.length then .ok ⟨data, rows, cols⟩
  else .error .ShapeMismatch

/-- Mat::filled: no dimension check in the source; always builds a matrix. -/
def filled (rows cols : Nat) (value : ℚ) : Mat :=
  ⟨List.replicate (rows * cols) value, rows, cols⟩

/-- Mat::zeros = Mat::new. -/
def zeros (rows cols : Nat) : Except ErrKind Mat :=
  new rows cols

/-- Mat::ones = Mat::filled(rows, cols, 1.0); inherits filled's missing check. -/
def ones (rows cols : Nat) : Mat :=
  filled rows cols 1

/-- The identity matrix value produced by Mat::eye's diagonal-writing loop. -/
def eyeAux (size : Nat) : Mat :=
  ofFn size size fun i j => if i = j then 1 else 0

/-- Mat::eye: zeros(size, size) (which panics when size == 0), then writes
the diagonal. -/
def eye (size : Nat) : Except ErrKind Mat :=
  if size ≠ 0 then .ok (eyeAux size) else .error .InvalidShape

/-- The Index impl: &self.data[i * self.cols + j].  Panics exactly when the
flat offset falls outside the buffer; there is no per-axis bounds check. -/
def get (m : Mat) (i j : Nat) : Except ErrKind ℚ :=
  if i * m.cols + j < m.data.length then .ok (m.data.getD (i * m.cols + j) 0)
  else .error .IndexOutOfBounds

/-- The IndexMut impl followed by an element write, with the same flat
offset check as Mat.get. -/
def set (m : Mat) (i j : Nat) (v : ℚ) : Except ErrKind Mat :=
  if i * m.cols + j < m.data.length then
    .ok ⟨m.data.set (i * m.cols + j) v, m.rows, m.cols⟩
  else .error .IndexOutOfBounds

/-- The matrix value Mat::transpose builds: dimensions swapped,
result (j, i) = self (i, j). -/
def transposeAux (m : Mat) : Mat :=
  ofFn m.cols m.rows fun i j => m.entry j i

/-- Mat::transpose: allocates zeros(self.cols, self.rows), whose constructor
asserts both dimensions nonzero, then copies entries. -/
def transpose (m : Mat) : Except ErrKind Mat :=
  if m.cols ≠ 0 ∧ m.rows ≠ 0 then .ok (transposeAux m) else .error .InvalidShape

/-- The minor matrix Mat::sub_matrix builds: delete row and col, keeping the
remaining rows and columns in order. -/
def subMatrixAux (m : Mat) (row col : Nat) : Mat :=
  ofFn (m.rows - 1) (m.cols - 1) fun i j =>
    m.entry (if i < row then i else i + 1) (if j < col then j else j + 1)

/-- Mat::sub_matrix: asserts row < rows, then col < cols, then
cols > 1 && rows > 1, in that order. -/
def sub_matrix (m : Mat) (row col : Nat) : Except ErrKind Mat :=
  if row < m.rows then
    if col < m.cols then
      if 1 < m.cols ∧ 1 < m.rows then .ok (subMatrixAux m row col)
      else .error .TooSmall
    else .error .IndexOutOfBounds
  else .error .IndexOutOfBounds

/-- The numeric recursion of Mat::det, with fuel bounding the recursion
depth; each recursive call is on a minor with one row fewer, so fuel = rows
reproduces the source recursion exactly (see detAux). -/
def detFuel : Nat → Mat → ℚ
  | 0, _ => 0
  | fuel + 1, m =>
    match m.rows with
    | 1 => m.entry 0 0
    | 2 => m.entry 0 0 * m.entry 1 1 - m.entry 0 1 * m.entry 1 0
    | _ =>
      ((List.range m.cols).map fun i =>
        (if i % 2 = 0 then (1 : ℚ) else -1) * m.entry 0 i
          * detFuel fuel (subMatrixAux m 0 i)).sum

/-- The value Mat::det computes once its square assertion has passed. -/
def detAux (m : Mat) : ℚ :=
  detFuel m.rows m

/-- Mat::det: asserts rows == cols, then runs the Laplace recursion. -/
def det (m : Mat) : Except ErrKind ℚ :=
  if m.rows = m.cols then .ok m.detAux else .error .NotSquare

/-- The Mul impl for &Mat: asserts self.cols == other.rows, allocates
zeros(self.rows, other.cols) (which asserts both nonzero), then fills in the
triple-loop sums. -/
def mul (a b : Mat) : Except ErrKind Mat :=
  if a.cols = b.rows then
    if a.rows ≠ 0 ∧ b.cols ≠ 0 then
      .ok (ofFn a.rows b.cols fun i j =>
        ((List.range a.cols).map fun k => a.entry i k * b.entry k j).sum)
    else .error .InvalidShape
  else .error .ShapeMismatch

/-- Mat::dot: asserts self.cols == other.rows, then delegates to the Mul
impl (which re-checks the same condition). -/
def dot (a b : Mat) : Except ErrKind Mat :=
  if a.cols = b.rows then mul a b else .error .ShapeMismatch

/-- Mat::pow: asserts square; 0 -> eye(rows), 1 -> clone, otherwise squares
pow(n/2) and multiplies once more by self when n is odd. -/
def pow (m : Mat) (n : Nat) : Except ErrKind Mat :=
  if m.rows = m.cols then
    match n with
    | 0 => eye m.rows
    | 1 => .ok m
    | k + 2 =>
      (pow m ((k + 2) / 2)).bind fun half =>
        (mul half half).bind fun result =>
          if (k + 2) % 2 = 0 then .ok result else mul result m
  else .error .NotSquare
termination_by n
decreasing_by omega

/-- The cofactor matrix value: entry (i, j) is the signed determinant of the
(i, j) minor, with the source's literal parity sign. -/
def cofactorAux (m : Mat) : Mat :=
  ofFn m.rows m.cols fun i j =>
    (if (i + j) % 2 = 0 then (1 : ℚ) else -1) * (subMatrixAux m i j).detAux

/-- Mat::cofactor: asserts square, allocates zeros(rows, cols) (panics when
rows == 0), and its first sub_matrix call panics TooSmall when rows == 1. -/
def cofactor (m : Mat) : Except ErrKind Mat :=
  if m.rows = m.cols then
    if m.rows = 0 then .error .InvalidShape
    else if m.rows = 1 then .error .TooSmall
    else .ok (cofactorAux m)
  else .error .NotSquare

/-- Mat::adjugate = self.cofactor().transpose(). -/
def adjugate (m : Mat) : Except ErrKind Mat :=
  m.cofactor.bind transpose

/-- The Div impl for &Mat by f64: asserts scalar != 0, divides every
element. -/
def divScalar (m : Mat) (k : ℚ) : Except ErrKind Mat :=
  if k ≠ 0 then .ok ⟨m.data.map fun v => v / k, m.rows, m.cols⟩
  else .error .DivisionByZero

/-- Mat::inverse: det == 0 (reported as the branchable None), otherwise
Some(adjugate / det). -/
def inverse (m : Mat) : Except ErrKind (Option Mat) :=
  m.det.bind fun d =>
    if d = 0 then .ok none
    else (m.adjugate.bind fun adj => (adj.divScalar d).map fun q => some q)

/-- The Add impl for &Mat: asserts equal rows, then equal cols, then
allocates zeros(rows, cols). -/
def add (a b : Mat) : Except ErrKind Mat :=
  if a.rows = b.rows then
    if a.cols = b.cols then
      if a.rows ≠ 0 ∧ a.cols ≠ 0 then
        .ok (ofFn a.rows a.cols fun i j => a.entry i j + b.entry i j)
      else .error .InvalidShape
    else .error .ShapeMismatch
  else .error .ShapeMismatch

/-- The Sub impl for &Mat, same contract as Add. -/
def sub (a b : Mat) : Except ErrKind Mat :=
  if a.rows = b.rows then
    if a.cols = b.cols then
      if a.rows ≠ 0 ∧ a.cols ≠ 0 then
        .ok (ofFn a.rows a.cols fun i j => a.entry i j - b.entry i j)
      else .error .InvalidShape
    else .error .ShapeMismatch
  else .error .ShapeMismatch

/-- The Neg impl for &Mat: clone, then negate every element in place. -/
def neg (m : Mat) : Mat :=
  ⟨m.data.map fun v => -v, m.rows, m.cols⟩

/-- The Mul impl for &Mat by f64 (right scalar multiplication). -/
def smul (m : Mat) (k : ℚ) : Mat :=
  ⟨m.data.map fun v => v * k, m.rows, m.cols⟩

/-- The Mul impl for f64 by &Mat (left scalar multiplication). -/
def smulL (k : ℚ) (m : Mat) : Mat :=
  ⟨m.data.map fun v => k * v, m.rows, m.cols⟩

end Mat

/-- The complex type of src/complex.rs. -/
structure Complex where
  re : ℚ
  im : ℚ
deriving DecidableEq, Repr

namespace Complex

/-- The Div impl for Complex: conjugate formula over the squared modulus of
the divisor; the source performs no zero check, so this never fails. -/
def div (a b : Complex) : Except ErrKind Complex :=
  .ok ⟨(a.re * b.re + a.im * b.im) / (b.re * b.re + b.im * b.im),
       (a.im * b.re - a.re * b.im) / (b.re * b.re + b.im * b.im)⟩

/-- The Div impl for f64 divided by Complex; likewise unchecked. -/
def realDiv (s : ℚ) (b : Complex) : Except ErrKind Complex :=
  .ok ⟨s * b.re / (b.re * b.re + b.im * b.im),
       -s * b.im / (b.re * b.re + b.im * b.im)⟩

end Complex

/-- Matrices producible through the public constructor-and-operator surface
of src/matrix.rs: closure of the constructors under every operation that
yields a matrix. -/
inductive Reachable : Mat → Prop where
  | new (r c : Nat) (m : Mat) : Mat.new r c = .ok m → Reachable m
  | from_vec (r c : Nat) (d : List ℚ) (m : Mat) :
      Mat.from_vec r c d = .ok m → Reachable m
  | filled (r c : Nat) (v : ℚ) : Reachable (Mat.filled r c v)
  | zeros (r c : Nat) (m : Mat) : Mat.zeros r c = .ok m → Reachable m
  | ones (r c : Nat) : Reachable (Mat.ones r c)
  | eye (n : Nat) (m : Mat) : Mat.eye n = .ok m → Reachable m
  | set (a : Mat) (i j : Nat) (v : ℚ) (m : Mat) :
      Reachable a → a.set i j v = .ok m → Reachable m
  | transpose (a m : Mat) : Reachable a → a.transpose = .ok m → Reachable m
  | sub_matrix (a : Mat) (r c : Nat) (m : Mat) :
      Reachable a → a.sub_matrix r c = .ok m → Reachable m
  | add (a b m : Mat) : Reachable a → Reachable b → Mat.add a b = .ok m → Reachable m
  | sub (a b m : Mat) : Reachable a → Reachable b → Mat.sub a b = .ok m → Reachable m
  | mul (a b m : Mat) : Reachable a → Reachable b → Mat.mul a b = .ok m → Reachable m
  | dot (a b m : Mat) : Reachable a → Reachable b → Mat.dot a b = .ok m → Reachable m
  | pow (a : Mat) (n : Nat) (m : Mat) : Reachable a → a.pow n = .ok m → Reachable m
  | cofactor (a m : Mat) : Reachable a → a.cofactor = .ok m → Reachable m
  | adjugate (a m : Mat) : Reachable a → a.adjugate = .ok m → Reachable m
  | inverse (a m : Mat) : Reachable a → a.inverse = .ok (some m) → Reachable m
  | divScalar (a : Mat) (k : ℚ) (m : Mat) :
      Reachable a → a.divScalar k = .ok m → Reachable m
  | neg (a : Mat) : Reachable a → Reachable a.neg
  | smul (a : Mat) (k : ℚ) : Reachable a → Reachable (a.smul k)
  | smulL (k : ℚ) (a : Mat) : Reachable a → Reachable (Mat.smulL k a)

end Mu

namespace Mu

/- Basic lemmas about the embedding. -/

theorem except_bind_ok {α β : Type} {e : Except ErrKind α} {f : α → Except ErrKind β}
    {b : β} (h : e.bind f = .ok b) : ∃ a, e = .ok a ∧ f a = .ok b := by
  cases e with
  | ok a => exact ⟨a, rfl, h⟩
  | error err => simp [Except.bind] at h

theorem list_range_map_sum (n : Nat) (f : Nat → ℚ) :
    ((List.range n).map f).sum = ∑ i in Finset.range n, f i := by
  induction n with
  | zero => simp
  | succ k ih => simp [List.range_succ, Finset.sum_range_succ, ih]

theorem sign_eq_neg_one_pow (n : Nat) :
    (if n % 2 = 0 then (1 : ℚ) else -1) = (-1 : ℚ) ^ n := by
  rcases Nat.even_or_odd n with h | h
  · simp [h.neg_one_pow, Nat.even_iff.mp h]
  · simp [h.neg_one_pow, Nat.odd_iff.mp h]

namespace Mat

@[simp] theorem ofFn_rows (r c : Nat) (f : Nat → Nat → ℚ) : (ofFn r c f).rows = r := rfl

@[simp] theorem ofFn_cols (r c : Nat) (f : Nat → Nat → ℚ) : (ofFn r c f).cols = c := rfl

@[simp] theorem ofFn_length (r c : Nat) (f : Nat → Nat → ℚ) :
    (ofFn r c f).data.length = r * c := by
  simp [ofFn]

theorem flat_index_lt (i j r c : Nat) (hi : i < r) (hj : j < c) :
    i * c + j < r * c :=
  calc i * c + j < i * c + c := by omega
  _ = (i + 1) * c := by ring
  _ ≤ r * c := Nat.mul_le_mul_right c hi

theorem entry_ofFn (r c : Nat) (f : Nat → Nat → ℚ) (i j : Nat)
    (hi : i < r) (hj : j < c) : (ofFn r c f).entry i j = f i j := by
  have hc : 0 < c := by omega
  have hidx : i * c + j < r * c := flat_index_lt i j r c hi hj
  have hdiv : (i * c + j) / c = i := by
    rw [Nat.mul_comm, Nat.mul_add_div hc, Nat.div_eq_of_lt hj]
    omega
  have hmod : (i * c + j) % c = j := by
    rw [Nat.mul_comm, Nat.mul_add_mod, Nat.mod_eq_of_lt hj]
  simp only [entry, ofFn, List.getD_eq_getElem?_getD]
  rw [List.getElem?_map, List.getElem?_range hidx]
  simp [hdiv, hmod]

theorem ofFn_congr {r c : Nat} {f g : Nat → Nat → ℚ}
    (h : ∀ i < r, ∀ j < c, f i j = g i j) : ofFn r c f = ofFn r c g := by
  simp only [ofFn, Mat.mk.injEq, and_true]
  apply List.map_congr_left
  intro k hk
  rw [List.mem_range] at hk
  have hc : 0 < c := by
    rcases Nat.eq_zero_or_pos c with h0 | h0
    · subst h0
      simp at hk
    · exact h0
  have hk' : k < c * r := by rw [Nat.mul_comm] at hk; exact hk
  exact h (k / c) (Nat.div_lt_of_lt_mul hk') (k % c) (Nat.mod_lt k hc)

theorem ofFn_eta (m : Mat) (h : m.data.length = m.rows * m.cols) :
    ofFn m.rows m.cols m.entry = m := by
  rcases m with ⟨d, r, c⟩
  simp only [ofFn, Mat.mk.injEq, and_true]
  simp only at h
  apply List.ext_getElem?
  intro n
  rcases Nat.lt_or_ge n (r * c) with hn | hn
  · have hc : 0 < c := by
      rcases Nat.eq_zero_or_pos c with h0 | h0
      · subst h0
        simp at hn
      · exact h0
    rw [List.getElem?_map, List.getElem?_range hn]
    have hsplit : n / c * c + n % c = n := by
      rw [Nat.mul_comm]
      exact Nat.div_add_mod n c
    have hnd : n < d.length := by omega
    have hent : (Mat.mk d r c).entry (n / c) (n % c) = d.getD n 0 := by
      simp [entry, hsplit]
    simp only [Option.map_some']
    rw [hent, List.getD_eq_getElem?_getD, List.getElem?_eq_getElem hnd]
    simp
  · rw [List.getElem?_eq_none (by simpa using hn),
      List.getElem?_eq_none (by omega)]

end Mat

end Mu

namespace Mu

namespace Mat

@[simp] theorem subMatrixAux_rows (m : Mat) (r c : Nat) :
    (subMatrixAux m r c).rows = m.rows - 1 := rfl

@[simp] theorem subMatrixAux_cols (m : Mat) (r c : Nat) :
    (subMatrixAux m r c).cols = m.cols - 1 := rfl

@[simp] theorem transposeAux_rows (m : Mat) : (transposeAux m).rows = m.cols := rfl

@[simp] theorem transposeAux_cols (m : Mat) : (transposeAux m).cols = m.rows := rfl

@[simp] theorem eyeAux_rows (n : Nat) : (eyeAux n).rows = n := rfl

@[simp] theorem eyeAux_cols (n : Nat) : (eyeAux n).cols = n := rfl

@[simp] theorem cofactorAux_rows (m : Mat) : (cofactorAux m).rows = m.rows := rfl

@[simp] theorem cofactorAux_cols (m : Mat) : (cofactorAux m).cols = m.cols := rfl

/- Per-operation facts feeding the reachable-invariant proof: each operation
that returns Ok returns a buffer of length rows * cols. -/

theorem new_ok_wf {r c : Nat} {m : Mat} (h : new r c = .ok m) :
    m.data.length = m.rows * m.cols := by
  by_cases hc : r ≠ 0 ∧ c ≠ 0 <;> simp [new, hc] at h
  subst h
  simp

theorem from_vec_ok_wf {r c : Nat} {d : List ℚ} {m : Mat}
    (h : from_vec r c d = .ok m) : m.data.length = m.rows * m.cols := by
  by_cases hc : r * c = d.length <;> simp [from_vec, hc] at h
  subst h
  simp [hc]

theorem filled_wf (r c : Nat) (v : ℚ) :
    (filled r c v).data.length = (filled r c v).rows * (filled r c v).cols := by
  simp [filled]

theorem eye_ok_wf {n : Nat} {m : Mat} (h : eye n = .ok m) :
    m.data.length = m.rows * m.cols := by
  by_cases hc : n ≠ 0 <;> simp [eye, hc] at h
  subst h
  simp [eyeAux]

theorem set_ok_wf {a : Mat} {i j : Nat} {v : ℚ} {m : Mat}
    (h : a.set i j v = .ok m) (ha : a.data.length = a.rows * a.cols) :
    m.data.length = m.rows * m.cols := by
  by_cases hc : i * a.cols + j < a.data.length <;> simp [set, hc] at h
  subst h
  simpa using ha

theorem transpose_ok_wf {a m : Mat} (h : a.transpose = .ok m) :
    m.data.length = m.rows * m.cols := by
  by_cases hc : a.cols ≠ 0 ∧ a.rows ≠ 0 <;> simp [transpose, hc] at h
  subst h
  simp [transposeAux]

theorem sub_matrix_ok_wf {a : Mat} {r c : Nat} {m : Mat}
    (h : a.sub_matrix r c = .ok m) : m.data.length = m.rows * m.cols := by
  simp only [sub_matrix] at h
  split at h
  · split at h
    · split at h
      · simp only [Except.ok.injEq] at h
        subst h
        simp [subMatrixAux]
      · simp at h
    · simp at h
  · simp at h

theorem mul_ok_wf {a b m : Mat} (h : mul a b = .ok m) :
    m.data.length = m.rows * m.cols := by
  simp only [mul] at h
  split at h
  · split at h
    · simp only [Except.ok.injEq] at h
      subst h
      simp
    · simp at h
  · simp at h

theorem dot_ok_wf {a b m : Mat} (h : dot a b = .ok m) :
    m.data.length = m.rows * m.cols := by
  simp only [dot] at h
  split at h
  · exact mul_ok_wf h
  · simp at h

theorem add_ok_wf {a b m : Mat} (h : add a b = .ok m) :
    m.data.length = m.rows * m.cols := by
  simp only [add] at h
  split at h
  · split at h
    · split at h
      · simp only [Except.ok.injEq] at h
        subst h
        simp
      · simp at h
    · simp at h
  · simp at h

theorem sub_ok_wf {a b m : Mat} (h : Mat.sub a b = .ok m) :
    m.data.length = m.rows * m.cols := by
  simp only [Mat.sub] at h
  split at h
  · split at h
    · split at h
      · simp only [Except.ok.injEq] at h
        subst h
        simp
      · simp at h
    · simp at h
  · simp at h

theorem cofactor_ok_wf {a m : Mat} (h : a.cofactor = .ok m) :
    m.data.length = m.rows * m.cols := by
  simp only [cofactor] at h
  split at h
  · split at h
    · simp at h
    · split at h
      · simp at h
      · simp only [Except.ok.injEq] at h
        subst h
        simp [cofactorAux]
  · simp at h

theorem adjugate_ok_wf {a m : Mat} (h : a.adjugate = .ok m) :
    m.data.length = m.rows * m.cols := by
  simp only [adjugate] at h
  obtain ⟨cof, _, htr⟩ := except_bind_ok h
  exact transpose_ok_wf htr

theorem divScalar_ok_wf {a : Mat} {k : ℚ} {m : Mat}
    (h : a.divScalar k = .ok m) (ha : a.data.length = a.rows * a.cols) :
    m.data.length = m.rows * m.cols := by
  by_cases hc : k ≠ 0 <;> simp [divScalar, hc] at h
  subst h
  simpa using ha

theorem inverse_ok_wf {a m : Mat} (h : a.inverse = .ok (some m)) :
    m.data.length = m.rows * m.cols := by
  simp only [inverse] at h
  obtain ⟨d, _, hrest⟩ := except_bind_ok h
  split at hrest
  · simp at hrest
  · obtain ⟨adj, hadj, hdiv⟩ := except_bind_ok hrest
    have hadjwf := adjugate_ok_wf hadj
    by_cases hk : d ≠ 0 <;> simp [divScalar, hk, Except.map] at hdiv
    subst hdiv
    simpa using hadjwf

theorem pow_ok_wf {a : Mat} {n : Nat} {m : Mat}
    (h : a.pow n = .ok m) (ha : a.data.length = a.rows * a.cols) :
    m.data.length = m.rows * m.cols := by
  induction n using Nat.strong_induction_on generalizing m with
  | _ n ih =>
    match n with
    | 0 =>
      rw [pow] at h
      split at h
      · exact eye_ok_wf h
      · simp at h
    | 1 =>
      rw [pow] at h
      split at h
      · simp only [Except.ok.injEq] at h
        subst h
        exact ha
      · simp at h
    | k + 2 =>
      rw [pow] at h
      split at h
      · obtain ⟨half, _, hrest⟩ := except_bind_ok h
        obtain ⟨sq, hsq, hfin⟩ := except_bind_ok hrest
        split at hfin
        · simp only [Except.ok.injEq] at hfin
          subst hfin
          exact mul_ok_wf hsq
        · exact mul_ok_wf hfin
      · simp at h

end Mat

/-- Every matrix reachable through the public API has a buffer of length
rows * cols. -/
theorem reachable_wf {m : Mat} (h : Reachable m) :
    m.data.length = m.rows * m.cols := by
  induction h with
  | new r c m hok => exact Mat.new_ok_wf hok
  | from_vec r c d m hok => exact Mat.from_vec_ok_wf hok
  | filled r c v => exact Mat.filled_wf r c v
  | zeros r c m hok => exact Mat.new_ok_wf hok
  | ones r c => exact Mat.filled_wf r c 1
  | eye n m hok => exact Mat.eye_ok_wf hok
  | set a i j v m _ hok iha => exact Mat.set_ok_wf hok iha
  | transpose a m _ hok _ => exact Mat.transpose_ok_wf hok
  | sub_matrix a r c m _ hok _ => exact Mat.sub_matrix_ok_wf hok
  | add a b m _ _ hok _ _ => exact Mat.add_ok_wf hok
  | sub a b m _ _ hok _ _ => exact Mat.sub_ok_wf hok
  | mul a b m _ _ hok _ _ => exact Mat.mul_ok_wf hok
  | dot a b m _ _ hok _ _ => exact Mat.dot_ok_wf hok
  | pow a n m _ hok iha => exact Mat.pow_ok_wf hok iha
  | cofactor a m _ hok _ => exact Mat.cofactor_ok_wf hok
  | adjugate a m _ hok _ => exact Mat.adjugate_ok_wf hok
  | inverse a m _ hok _ => exact Mat.inverse_ok_wf hok
  | divScalar a k m _ hok iha => exact Mat.divScalar_ok_wf hok iha
  | neg a _ iha => simpa [Mat.neg] using iha
  | smul a k _ iha => simpa [Mat.smul] using iha
  | smulL k a _ iha => simpa [Mat.smulL] using iha

end Mu

namespace Mu

namespace Mat

theorem detAux_one {m : Mat} (h : m.rows = 1) : m.detAux = m.entry 0 0 := by
  rcases m with ⟨d, r, c⟩
  simp only at h
  subst h
  simp [detAux, detFuel]

theorem detAux_two {m : Mat} (h : m.rows = 2) :
    m.detAux = m.entry 0 0 * m.entry 1 1 - m.entry 0 1 * m.entry 1 0 := by
  rcases m with ⟨d, r, c⟩
  simp only at h
  subst h
  simp [detAux, detFuel]

theorem detAux_rec {m : Mat} {k : Nat} (h : m.rows = k + 3) :
    m.detAux = ((List.range m.cols).map fun i =>
      (if i % 2 = 0 then (1 : ℚ) else -1) * m.entry 0 i
        * (m.subMatrixAux 0 i).detAux).sum := by
  rcases m with ⟨d, r, c⟩
  simp only at h
  subst h
  simp [detAux, detFuel]

theorem det_eq {m : Mat} (h : m.rows = m.cols) : m.det = .ok m.detAux := by
  simp [det, h]

theorem sub_matrix_ok {m : Mat} {r c : Nat} (hr : r < m.rows) (hc : c < m.cols)
    (h1 : 1 < m.cols) (h2 : 1 < m.rows) :
    m.sub_matrix r c = .ok (m.subMatrixAux r c) := by
  simp [sub_matrix, hr, hc, h1, h2]

theorem transpose_ok {m : Mat} (h1 : m.cols ≠ 0) (h2 : m.rows ≠ 0) :
    m.transpose = .ok (transposeAux m) := by
  simp [transpose, h1, h2]

theorem mul_ok {a b : Mat} (h : a.cols = b.rows) (ha : a.rows ≠ 0) (hb : b.cols ≠ 0) :
    Mat.mul a b = .ok (ofFn a.rows b.cols fun i j =>
      ((List.range a.cols).map fun k => a.entry i k * b.entry k j).sum) := by
  simp [mul, h, ha, hb]

theorem cofactor_ok {m : Mat} (hsq : m.rows = m.cols) (h2 : 2 ≤ m.rows) :
    m.cofactor = .ok (cofactorAux m) := by
  have h0 : ¬m.rows = 0 := by omega
  have h1 : ¬m.rows = 1 := by omega
  have h0c : ¬m.cols = 0 := by omega
  have h1c : ¬m.cols = 1 := by omega
  simp [cofactor, hsq, h0, h1, h0c, h1c]

theorem adjugate_ok {m : Mat} (hsq : m.rows = m.cols) (h2 : 2 ≤ m.rows) :
    m.adjugate = .ok (transposeAux (cofactorAux m)) := by
  have hc : (cofactorAux m).cols ≠ 0 := by simp; omega
  have hr : (cofactorAux m).rows ≠ 0 := by simp; omega
  simp only [adjugate, cofactor_ok hsq h2, Except.bind]
  exact transpose_ok hc hr

theorem pow_ok_shape (A : Mat) (hsq : A.rows = A.cols) (h1 : 0 < A.rows) :
    ∀ n, ∃ B, A.pow n = .ok B ∧ B.rows = A.rows ∧ B.cols = A.rows := by
  intro n
  induction n using Nat.strong_induction_on with
  | _ n ih =>
    match n with
    | 0 =>
      refine ⟨eyeAux A.rows, ?_, rfl, rfl⟩
      have hc0 : A.cols ≠ 0 := by omega
      rw [pow]
      simp [hsq, eye, h1.ne', hc0]
    | 1 =>
      refine ⟨A, ?_, rfl, hsq.symm⟩
      rw [pow]
      simp [hsq]
    | k + 2 =>
      obtain ⟨half, hhalf, hrr, hcc⟩ := ih ((k + 2) / 2) (by omega)
      have hsqok := mul_ok (a := half) (b := half)
        (by rw [hcc, hrr]) (by omega) (by omega)
      set sq := ofFn half.rows half.cols fun i j =>
        ((List.range half.cols).map fun l => half.entry i l * half.entry l j).sum with hsqdef
      have hsqr : sq.rows = A.rows := by simp [hsqdef, hrr]
      have hsqc : sq.cols = A.rows := by simp [hsqdef, hcc]
      have hhalf' : A.pow (k / 2 + 1) = .ok half := by
        rw [show k / 2 + 1 = (k + 2) / 2 by omega]
        exact hhalf
      by_cases hpar : (k + 2) % 2 = 0
      · refine ⟨sq, ?_, hsqr, hsqc⟩
        rw [pow]
        simp [hsq, hhalf, hhalf', Except.bind, hsqok, hpar]
      · have hfin := mul_ok (a := sq) (b := A) (by rw [hsqc]) (by omega) (by omega)
        refine ⟨ofFn sq.rows A.cols fun i j =>
            ((List.range sq.cols).map fun l => sq.entry i l * A.entry l j).sum,
          ?_, ?_, ?_⟩
        · have hpar2 : ¬k % 2 = 0 := by omega
          rw [pow]
          simp [hsq, hhalf, hhalf', Except.bind, hsqok, hpar, hpar2, hfin]
        · simpa using hsqr
        · simpa using hsq.symm

end Mat

end Mu

namespace Mu

/-- C1: for every square matrix A, det(A) is the Laplace expansion along
row 0 - size 1 gives A[0][0]; size 2 gives A[0][0]*A[1][1]-A[0][1]*A[1][0];
size n > 2 gives the alternating sum over column i of
(-1)^i * A[0][i] * det(subMatrix(A, 0, i)), the sign starting at +1; and det
fails with NotSquare when rows != cols. -/
theorem det_laplace_row0 (A : Mat) :
    (A.rows ≠ A.cols → A.det = .error .NotSquare) ∧
    (A.rows = A.cols →
      (A.rows = 1 → A.det = .ok (A.entry 0 0)) ∧
      (A.rows = 2 →
        A.det = .ok (A.entry 0 0 * A.entry 1 1 - A.entry 0 1 * A.entry 1 0)) ∧
      (2 < A.rows →
        (∀ i < A.rows, A.sub_matrix 0 i = .ok (A.subMatrixAux 0 i) ∧
          (A.subMatrixAux 0 i).det = .ok (A.subMatrixAux 0 i).detAux) ∧
        A.det = .ok (∑ i in Finset.range A.rows,
          (-1 : ℚ) ^ i * A.entry 0 i * (A.subMatrixAux 0 i).detAux))) := by
  refine ⟨fun hne => by simp [Mat.det, hne],
    fun hsq => ⟨fun h1 => ?_, fun h2 => ?_, fun h3 => ?_⟩⟩
  · rw [Mat.det_eq hsq, Mat.detAux_one h1]
  · rw [Mat.det_eq hsq, Mat.detAux_two h2]
  · constructor
    · intro i hi
      refine ⟨Mat.sub_matrix_ok (by omega) (by omega) (by omega) (by omega), ?_⟩
      exact Mat.det_eq (by simp; omega)
    · obtain ⟨k, hk⟩ : ∃ k, A.rows = k + 3 := ⟨A.rows - 3, by omega⟩
      rw [Mat.det_eq hsq, Mat.detAux_rec hk, list_range_map_sum, ← hsq]
      exact congrArg Except.ok
        (Finset.sum_congr rfl fun i _ => by rw [sign_eq_neg_one_pow])

/-- Witness for det_laplace_row0 at the concrete 2 x 2 matrix
[[1,2],[3,4]]. -/
theorem det_laplace_row0_witness :
    Mat.det ⟨[1, 2, 3, 4], 2, 2⟩ = .ok
      (Mat.entry ⟨[1, 2, 3, 4], 2, 2⟩ 0 0 * Mat.entry ⟨[1, 2, 3, 4], 2, 2⟩ 1 1
        - Mat.entry ⟨[1, 2, 3, 4], 2, 2⟩ 0 1 * Mat.entry ⟨[1, 2, 3, 4], 2, 2⟩ 1 0) :=
  ((det_laplace_row0 ⟨[1, 2, 3, 4], 2, 2⟩).2 rfl).2.1 rfl

/-- C3: multiply fails with ShapeMismatch unless A.cols = B.rows; a
successful product has shape (A.rows, B.cols) with the triple-loop entries;
and dot agrees with multiply on every pair of operands. -/
theorem mul_dot_shape_contract (A B : Mat) :
    (A.cols ≠ B.rows → Mat.mul A B = .error .ShapeMismatch) ∧
    (∀ C, Mat.mul A B = .ok C →
      C.rows = A.rows ∧ C.cols = B.cols ∧
      ∀ i < A.rows, ∀ j < B.cols,
        C.entry i j = ∑ k in Finset.range A.cols, A.entry i k * B.entry k j) ∧
    Mat.dot A B = Mat.mul A B := by
  refine ⟨fun hne => by simp [Mat.mul, hne], fun C hC => ?_, ?_⟩
  · simp only [Mat.mul] at hC
    split at hC
    · split at hC
      · simp only [Except.ok.injEq] at hC
        subst hC
        refine ⟨rfl, rfl, fun i hi j hj => ?_⟩
        rw [Mat.entry_ofFn _ _ _ i j hi hj, list_range_map_sum]
      · simp at hC
    · simp at hC
  · by_cases h : A.cols = B.rows
    · simp [Mat.dot, h]
    · simp [Mat.dot, Mat.mul, h]

/-- Witness for mul_dot_shape_contract: dot and multiply agree on the 2 x 3
by 3 x 2 textbook product, and multiply of incompatible shapes reports
ShapeMismatch. -/
theorem mul_dot_shape_contract_witness :
    Mat.dot ⟨[1, 2, 3, 4, 5, 6], 2, 3⟩ ⟨[7, 8, 9, 10, 11, 12], 3, 2⟩
      = Mat.mul ⟨[1, 2, 3, 4, 5, 6], 2, 3⟩ ⟨[7, 8, 9, 10, 11, 12], 3, 2⟩ ∧
    Mat.mul ⟨[1, 2, 3, 4], 2, 2⟩ ⟨[7, 8, 9, 10, 11, 12], 3, 2⟩
      = .error .ShapeMismatch :=
  ⟨(mul_dot_shape_contract ⟨[1, 2, 3, 4, 5, 6], 2, 3⟩
      ⟨[7, 8, 9, 10, 11, 12], 3, 2⟩).2.2,
   (mul_dot_shape_contract ⟨[1, 2, 3, 4], 2, 2⟩
      ⟨[7, 8, 9, 10, 11, 12], 3, 2⟩).1 (by decide)⟩

/-- C5 counterexample: filled(0, 3, 1.0) does not fail with InvalidShape;
it silently produces a matrix with zero rows and an empty buffer. -/
theorem filled_zero_rows_cex : Mat.filled 0 3 1 = ⟨[], 0, 3⟩ := rfl

/-- C5 amended: zeros and eye reject zero dimensions with InvalidShape, but
filled (and its ones alias) performs no check and returns a matrix for any
requested dimensions. -/
theorem constructors_zero_dim (r c : Nat) (v : ℚ) (h : r = 0 ∨ c = 0) :
    Mat.zeros r c = .error .InvalidShape ∧
    Mat.eye 0 = .error .InvalidShape ∧
    Mat.filled r c v = ⟨List.replicate (r * c) v, r, c⟩ ∧
    Mat.ones r c = ⟨List.replicate (r * c) 1, r, c⟩ := by
  refine ⟨?_, by simp [Mat.eye], rfl, rfl⟩
  rcases h with h | h <;> simp [Mat.zeros, Mat.new, h]

/-- Witness for constructors_zero_dim at rows = 0, cols = 3. -/
theorem constructors_zero_dim_witness :
    Mat.zeros 0 3 = .error .InvalidShape ∧
    Mat.eye 0 = .error .InvalidShape ∧
    Mat.filled 0 3 7 = ⟨List.replicate (0 * 3) 7, 0, 3⟩ ∧
    Mat.ones 0 3 = ⟨List.replicate (0 * 3) 1, 0, 3⟩ :=
  constructors_zero_dim 0 3 7 (Or.inl rfl)

/-- C7: the Index/IndexMut impls only check the flat offset i*cols + j
against the buffer length, so on the 2 x 2 matrix [[1,2],[3,4]] the read
get(0, 2) succeeds and returns 3.0 - the element stored at (1, 0) - and
set(0, 2, 9) silently overwrites that element, where the claim and the
specification require an IndexOutOfBounds failure for j >= cols. -/
theorem index_flat_aliasing :
    Mat.from_vec 2 2 [1, 2, 3, 4] = .ok ⟨[1, 2, 3, 4], 2, 2⟩ ∧
    Mat.get ⟨[1, 2, 3, 4], 2, 2⟩ 0 2 = .ok 3 ∧
    Mat.entry ⟨[1, 2, 3, 4], 2, 2⟩ 1 0 = 3 ∧
    Mat.set ⟨[1, 2, 3, 4], 2, 2⟩ 0 2 9 = .ok ⟨[1, 2, 9, 4], 2, 2⟩ :=
  ⟨rfl, rfl, rfl, rfl⟩

/-- C8 counterexample: complex division by the zero complex number does not
fail with DivisionByZero; both Complex/Complex and f64/Complex division
return a value computed with a zero denominator. -/
theorem complex_div_zero_cex :
    Complex.div ⟨1, 1⟩ ⟨0, 0⟩ = .ok ⟨0, 0⟩ ∧
    Complex.realDiv 2 ⟨0, 0⟩ = .ok ⟨0, 0⟩ := by
  constructor <;> norm_num [Complex.div, Complex.realDiv]

/-- C8 amended: complex division (and real-scalar / complex division) is
unchecked: even when the divisor b satisfies b.re^2 + b.im^2 = 0 it returns
a numeric result (non-finite in IEEE arithmetic) and never signals
DivisionByZero. -/
theorem complex_div_unchecked (a b : Complex) (s : ℚ)
    (h : b.re * b.re + b.im * b.im = 0) :
    (Complex.div a b).isOk = true ∧ (Complex.realDiv s b).isOk = true :=
  ⟨rfl, rfl⟩

/-- Witness for complex_div_unchecked at the zero divisor. -/
theorem complex_div_unchecked_witness :
    (Complex.div ⟨1, 1⟩ ⟨0, 0⟩).isOk = true ∧
    (Complex.realDiv 2 ⟨0, 0⟩).isOk = true :=
  complex_div_unchecked ⟨1, 1⟩ ⟨0, 0⟩ 2 (by norm_num)

end Mu

namespace Mu

/-- C10 counterexample: the constructible matrix filled(0, 3, 1.0) has zero
rows, so transposing it panics (zeros(3, 0) rejects the shape) and
transpose(transpose(A)) is an error rather than A. -/
theorem transpose_involution_cex :
    (Mat.transpose (Mat.filled 0 3 1)).bind Mat.transpose
      = .error .InvalidShape ∧
    (Mat.transpose (Mat.filled 0 3 1)).bind Mat.transpose
      ≠ .ok (Mat.filled 0 3 1) := by
  constructor
  · rfl
  · intro h
    simp [Mat.transpose, Mat.filled, Except.bind] at h

/-- C10 amended: on every matrix reachable through the public API that has
at least one row and one column, transpose succeeds and is an involution:
transpose(transpose(A)) = A. -/
theorem transpose_involution (A : Mat) (hA : Reachable A)
    (h1 : 0 < A.rows) (h2 : 0 < A.cols) :
    (Mat.transpose A).bind Mat.transpose = .ok A := by
  have hwf := reachable_wf hA
  rw [Mat.transpose_ok (by omega) (by omega)]
  simp only [Except.bind]
  rw [Mat.transpose_ok (by simp; omega) (by simp; omega)]
  have hout : Mat.transposeAux (Mat.transposeAux A)
      = Mat.ofFn A.rows A.cols A.entry := by
    have hcongr : Mat.ofFn A.rows A.cols
        (fun i j => (Mat.transposeAux A).entry j i)
          = Mat.ofFn A.rows A.cols A.entry :=
      Mat.ofFn_congr fun i hi j hj =>
        Mat.entry_ofFn A.cols A.rows _ j i hj hi
    exact hcongr
  rw [hout, Mat.ofFn_eta A hwf]

/-- Witness for transpose_involution at the reachable 2 x 3 matrix
[[1,2,3],[4,5,6]]. -/
theorem transpose_involution_witness :
    (Mat.transpose ⟨[1, 2, 3, 4, 5, 6], 2, 3⟩).bind Mat.transpose
      = .ok ⟨[1, 2, 3, 4, 5, 6], 2, 3⟩ :=
  transpose_involution ⟨[1, 2, 3, 4, 5, 6], 2, 3⟩
    (Reachable.from_vec 2 3 [1, 2, 3, 4, 5, 6] ⟨[1, 2, 3, 4, 5, 6], 2, 3⟩ rfl)
    (by decide) (by decide)

end Mu

namespace Mu

/-- Entry of the transposed matrix within bounds. -/
theorem Mat.entry_transposeAux (m : Mat) (i j : Nat)
    (hi : i < m.cols) (hj : j < m.rows) :
    (Mat.transposeAux m).entry i j = m.entry j i :=
  Mat.entry_ofFn m.cols m.rows _ i j hi hj

/-- C9 counterexample: with A = filled(2, 0, 1.0) and B = filled(0, 3, 1.0)
the inner dimensions agree (A.cols = 0 = B.rows), multiply succeeds with an
all-zero 2 x 3 product whose transpose is a 3 x 2 matrix, yet
transpose(B) panics on the zero dimension, so the two sides of the claimed
identity differ. -/
theorem transpose_mul_degenerate_cex :
    (Mat.filled 2 0 1).cols = (Mat.filled 0 3 1).rows ∧
    (Mat.mul (Mat.filled 2 0 1) (Mat.filled 0 3 1)).bind Mat.transpose
      = .ok ⟨[0, 0, 0, 0, 0, 0], 3, 2⟩ ∧
    ((Mat.transpose (Mat.filled 0 3 1)).bind fun bt =>
      (Mat.transpose (Mat.filled 2 0 1)).bind fun ta => Mat.mul bt ta)
      = .error .InvalidShape := by
  refine ⟨rfl, ?_, rfl⟩
  rfl

/-- C9 amended: for all matrices A, B with at least one row and one column
each and A.cols = B.rows, transpose(multiply(A, B)) =
multiply(transpose(B), transpose(A)). -/
theorem transpose_mul_reverse (A B : Mat) (har : 0 < A.rows) (hac : 0 < A.cols)
    (hbc : 0 < B.cols) (h : A.cols = B.rows) :
    (Mat.mul A B).bind Mat.transpose
      = (Mat.transpose B).bind fun bt =>
          (Mat.transpose A).bind fun ta => Mat.mul bt ta := by
  have hbr : 0 < B.rows := h ▸ hac
  rw [Mat.mul_ok h (by omega) (by omega)]
  simp only [Except.bind]
  rw [Mat.transpose_ok (by simp; omega) (by simp; omega)]
  rw [Mat.transpose_ok (m := B) (by omega) (by omega)]
  simp only [Except.bind]
  rw [Mat.transpose_ok (m := A) (by omega) (by omega)]
  simp only [Except.bind]
  rw [Mat.mul_ok (a := Mat.transposeAux B) (b := Mat.transposeAux A)
    (by simp [h]) (by simp; omega) (by simp; omega)]
  congr 1
  have hstep : Mat.ofFn B.cols A.rows
      (fun i j => (Mat.ofFn A.rows B.cols fun x y =>
        ((List.range A.cols).map fun k => A.entry x k * B.entry k y).sum).entry j i)
      = Mat.ofFn B.cols A.rows
        (fun i j => ((List.range B.rows).map fun k =>
          (Mat.transposeAux B).entry i k * (Mat.transposeAux A).entry k j).sum) := by
    apply Mat.ofFn_congr
    intro i hi j hj
    rw [Mat.entry_ofFn _ _ _ j i hj hi, list_range_map_sum, list_range_map_sum, ← h]
    refine Finset.sum_congr rfl fun k hk => ?_
    rw [Finset.mem_range] at hk
    rw [Mat.entry_transposeAux B i k hi (by omega),
      Mat.entry_transposeAux A k j (by omega) hj]
    ring
  exact hstep

/-- Witness for transpose_mul_reverse at the concrete 2 x 3 and 3 x 2
matrices of the textbook product. -/
theorem transpose_mul_reverse_witness :
    (Mat.mul ⟨[1, 2, 3, 4, 5, 6], 2, 3⟩ ⟨[7, 8, 9, 10, 11, 12], 3, 2⟩).bind
        Mat.transpose
      = (Mat.transpose ⟨[7, 8, 9, 10, 11, 12], 3, 2⟩).bind fun bt =>
          (Mat.transpose ⟨[1, 2, 3, 4, 5, 6], 2, 3⟩).bind fun ta =>
            Mat.mul bt ta :=
  transpose_mul_reverse ⟨[1, 2, 3, 4, 5, 6], 2, 3⟩ ⟨[7, 8, 9, 10, 11, 12], 3, 2⟩
    (by decide) (by decide) (by decide) (by decide)

end Mu

namespace Mu

/-- One unfolding of the binary-exponentiation recursion of Mat::pow for
exponents of size at least two, on a nonempty square base. -/
theorem Mat.pow_two_step (A : Mat) (hsq : A.rows = A.cols) (h1 : 0 < A.rows)
    (k : Nat) :
    ∃ half sq fin, A.pow ((k + 2) / 2) = .ok half ∧
      Mat.mul half half = .ok sq ∧
      (if (k + 2) % 2 = 0 then fin = sq else Mat.mul sq A = .ok fin) ∧
      A.pow (k + 2) = .ok fin := by
  obtain ⟨half, hhalf, hrr, hcc⟩ := Mat.pow_ok_shape A hsq h1 ((k + 2) / 2)
  have hsqok := Mat.mul_ok (a := half) (b := half)
    (by rw [hcc, hrr]) (by omega) (by omega)
  set sq := Mat.ofFn half.rows half.cols fun i j =>
    ((List.range half.cols).map fun l => half.entry i l * half.entry l j).sum
    with hsqdef
  have hsqr : sq.rows = A.rows := by simp [hsqdef, hrr]
  have hsqc : sq.cols = A.rows := by simp [hsqdef, hcc]
  have hhalf2 : A.pow (k / 2 + 1) = .ok half := by
    rw [show k / 2 + 1 = (k + 2) / 2 by omega]
    exact hhalf
  by_cases hpar : (k + 2) % 2 = 0
  · refine ⟨half, sq, sq, hhalf, hsqok, by simp [hpar], ?_⟩
    rw [Mat.pow]
    simp [hsq, hhalf2, Except.bind, hsqok, hpar]
  · have hfin := Mat.mul_ok (a := sq) (b := A)
      (by rw [hsqc]) (by omega) (by omega)
    refine ⟨half, sq, Mat.ofFn sq.rows A.cols fun i j =>
        ((List.range sq.cols).map fun l => sq.entry i l * A.entry l j).sum,
      hhalf, hsqok, ?_, ?_⟩
    · rw [if_neg hpar]
      exact hfin
    · have hpar2 : ¬k % 2 = 0 := by omega
      rw [Mat.pow]
      simp [hsq, hhalf2, Except.bind, hsqok, hpar, hpar2, hfin]

/-- C4 counterexample: the constructible square matrix from_vec(0, 0, [])
makes pow(A, 0) panic in eye(0) (InvalidShape) instead of producing the
identity matrix of matching size. -/
theorem pow_empty_square_cex :
    Mat.from_vec 0 0 [] = .ok ⟨[], 0, 0⟩ ∧
    (⟨[], 0, 0⟩ : Mat).rows = (⟨[], 0, 0⟩ : Mat).cols ∧
    Mat.pow ⟨[], 0, 0⟩ 0 = .error .InvalidShape := by
  refine ⟨rfl, rfl, ?_⟩
  rw [Mat.pow]
  simp [Mat.eye]

/-- C4 amended: pow fails with NotSquare on non-square operands; on square
matrices with at least one row, pow(A, 0) is the identity of matching size,
pow(A, 1) is A itself, and for n > 1 pow(A, n) squares half = pow(A, n/2)
and multiplies once more by A when n is odd. -/
theorem pow_binary_exponentiation (A : Mat) (n : Nat) :
    (A.rows ≠ A.cols → A.pow n = .error .NotSquare) ∧
    (A.rows = A.cols → 1 ≤ A.rows →
      A.pow 0 = .ok (Mat.eyeAux A.rows) ∧
      A.pow 1 = .ok A ∧
      (1 < n → ∃ half sq fin, A.pow (n / 2) = .ok half ∧
        Mat.mul half half = .ok sq ∧
        (if n % 2 = 0 then fin = sq else Mat.mul sq A = .ok fin) ∧
        A.pow n = .ok fin)) := by
  constructor
  · intro hne
    rcases n with _ | n
    · rw [Mat.pow]
      simp [hne]
    · rcases n with _ | k
      · rw [Mat.pow]
        simp [hne]
      · rw [Mat.pow]
        simp [hne]
  · intro hsq h1
    refine ⟨?_, ?_, fun hn => ?_⟩
    · have hc0 : A.cols ≠ 0 := by omega
      have hr0 : A.rows ≠ 0 := by omega
      rw [Mat.pow]
      simp [hsq, Mat.eye, hc0, hr0]
    · rw [Mat.pow]
      simp [hsq]
    · obtain ⟨k, rfl⟩ : ∃ k, n = k + 2 := ⟨n - 2, by omega⟩
      exact Mat.pow_two_step A hsq (by omega) k

/-- Witness for pow_binary_exponentiation: the 2 x 2 matrix [[1,2],[3,4]]
at exponents 1 and 5, and NotSquare on a 2 x 3 operand. -/
theorem pow_binary_exponentiation_witness :
    Mat.pow ⟨[1, 2, 3, 4], 2, 2⟩ 1 = .ok ⟨[1, 2, 3, 4], 2, 2⟩ ∧
    Mat.pow ⟨[1, 2, 3, 4, 5, 6], 2, 3⟩ 5 = .error .NotSquare ∧
    (∃ half sq fin, Mat.pow ⟨[1, 2, 3, 4], 2, 2⟩ (5 / 2) = .ok half ∧
      Mat.mul half half = .ok sq ∧
      (if 5 % 2 = 0 then fin = sq
        else Mat.mul sq ⟨[1, 2, 3, 4], 2, 2⟩ = .ok fin) ∧
      Mat.pow ⟨[1, 2, 3, 4], 2, 2⟩ 5 = .ok fin) :=
  ⟨((pow_binary_exponentiation ⟨[1, 2, 3, 4], 2, 2⟩ 1).2 rfl (by decide)).2.1,
   (pow_binary_exponentiation ⟨[1, 2, 3, 4, 5, 6], 2, 3⟩ 5).1 (by decide),
   ((pow_binary_exponentiation ⟨[1, 2, 3, 4], 2, 2⟩ 5).2 rfl (by decide)).2.2
     (by decide)⟩

end Mu

namespace Mu

/-- C2 counterexample: the nonsingular 1 x 1 matrix [[2]] (det = 2) makes
inverse panic in sub_matrix ("Matrix must be at least 2x2", TooSmall)
instead of returning adjugate / det. -/
theorem inverse_one_by_one_cex :
    Mat.from_vec 1 1 [2] = .ok ⟨[2], 1, 1⟩ ∧
    Mat.det ⟨[2], 1, 1⟩ = .ok 2 ∧
    Mat.inverse ⟨[2], 1, 1⟩ = .error .TooSmall := by
  refine ⟨rfl, rfl, ?_⟩
  norm_num [Mat.inverse, Mat.det, Mat.detAux, Mat.detFuel, Mat.entry,
    Mat.adjugate, Mat.cofactor, Except.bind]

/-- C2 amended: on square matrices of size at least 2, inverse returns the
branchable "no inverse" value exactly when det = 0, and otherwise succeeds
with adjugate(A) / det(A), where the cofactor entries are the signed minor
determinants (-1)^(i+j) * det(subMatrix(A, i, j)) and the adjugate is the
transpose of the cofactor matrix. -/
theorem inverse_adjugate_over_det (A : Mat) (hsq : A.rows = A.cols)
    (h2 : 2 ≤ A.rows) :
    A.det = .ok A.detAux ∧
    (A.inverse = .ok none ↔ A.detAux = 0) ∧
    (A.detAux ≠ 0 →
      ∃ cof adj inv, A.cofactor = .ok cof ∧
        (∀ i < A.rows, ∀ j < A.rows,
          cof.entry i j = (-1 : ℚ) ^ (i + j) * (A.subMatrixAux i j).detAux) ∧
        A.adjugate = .ok adj ∧ adj = Mat.transposeAux cof ∧
        adj.divScalar A.detAux = .ok inv ∧
        A.inverse = .ok (some inv)) := by
  have hdet := Mat.det_eq hsq
  have hinv : ∀ hne : ¬A.detAux = 0,
      A.inverse = .ok (some ⟨(Mat.transposeAux (Mat.cofactorAux A)).data.map
        fun v => v / A.detAux,
        (Mat.transposeAux (Mat.cofactorAux A)).rows,
        (Mat.transposeAux (Mat.cofactorAux A)).cols⟩) := by
    intro hne
    simp only [Mat.inverse, hdet, Except.bind]
    rw [if_neg hne, Mat.adjugate_ok hsq h2]
    simp [Mat.divScalar, hne, Except.map, Except.bind]
  refine ⟨hdet, ⟨?_, ?_⟩, ?_⟩
  · intro h0
    by_contra hne
    rw [hinv hne] at h0
    simp at h0
  · intro h0
    simp only [Mat.inverse, hdet, Except.bind]
    rw [if_pos h0]
  · intro hne
    refine ⟨Mat.cofactorAux A, Mat.transposeAux (Mat.cofactorAux A),
      ⟨(Mat.transposeAux (Mat.cofactorAux A)).data.map fun v => v / A.detAux,
        (Mat.transposeAux (Mat.cofactorAux A)).rows,
        (Mat.transposeAux (Mat.cofactorAux A)).cols⟩,
      Mat.cofactor_ok hsq h2, ?_, Mat.adjugate_ok hsq h2, rfl, ?_, hinv hne⟩
    · intro i hi j hj
      rw [Mat.cofactorAux, Mat.entry_ofFn _ _ _ i j hi (by omega),
        sign_eq_neg_one_pow]
    · simp [Mat.divScalar, hne]

/-- Witness for inverse_adjugate_over_det at the nonsingular 2 x 2 matrix
[[4,7],[2,6]] of the repository's own test. -/
theorem inverse_adjugate_over_det_witness :
    ∃ cof adj inv, Mat.cofactor ⟨[4, 7, 2, 6], 2, 2⟩ = .ok cof ∧
      (∀ i < (⟨[4, 7, 2, 6], 2, 2⟩ : Mat).rows,
        ∀ j < (⟨[4, 7, 2, 6], 2, 2⟩ : Mat).rows,
        cof.entry i j = (-1 : ℚ) ^ (i + j)
          * ((⟨[4, 7, 2, 6], 2, 2⟩ : Mat).subMatrixAux i j).detAux) ∧
      Mat.adjugate ⟨[4, 7, 2, 6], 2, 2⟩ = .ok adj ∧
      adj = Mat.transposeAux cof ∧
      adj.divScalar (Mat.detAux ⟨[4, 7, 2, 6], 2, 2⟩) = .ok inv ∧
      Mat.inverse ⟨[4, 7, 2, 6], 2, 2⟩ = .ok (some inv) :=
  ((inverse_adjugate_over_det ⟨[4, 7, 2, 6], 2, 2⟩ rfl (by decide)).2.2)
    (by norm_num [Mat.detAux, Mat.detFuel, Mat.entry])

/-- C6 counterexample: filled(0, 3, 1.0) is produced by a public
constructor yet has zero rows, violating the claimed rows >= 1 invariant. -/
theorem empty_matrix_reachable_cex :
    Reachable (Mat.filled 0 3 1) ∧ (Mat.filled 0 3 1).rows = 0 :=
  ⟨Reachable.filled 0 3 1, rfl⟩

/-- C6 amended: every matrix produced by the public constructors and
operations satisfies data.length = rows * cols, and the row-major address
i*cols + j of any in-range (i, j) falls inside the buffer; but rows >= 1
and cols >= 1 is not an invariant (filled, ones and from_vec accept zero
dimensions). -/
theorem reachable_layout_invariant (m : Mat) (h : Reachable m) :
    m.data.length = m.rows * m.cols ∧
    ∀ i j, i < m.rows → j < m.cols → i * m.cols + j < m.data.length := by
  have hwf := reachable_wf h
  exact ⟨hwf, fun i j hi hj => by
    rw [hwf]
    exact Mat.flat_index_lt i j _ _ hi hj⟩

/-- Witness for reachable_layout_invariant at the reachable matrix
filled(2, 3, 5). -/
theorem reachable_layout_invariant_witness :
    (Mat.filled 2 3 5).data.length
      = (Mat.filled 2 3 5).rows * (Mat.filled 2 3 5).cols ∧
    0 * (Mat.filled 2 3 5).cols + 2 < (Mat.filled 2 3 5).data.length :=
  ⟨(reachable_layout_invariant _ (Reachable.filled 2 3 5)).1,
   (reachable_layout_invariant _ (Reachable.filled 2 3 5)).2 0 2
     (by decide) (by decide)⟩

end Mu
